import Mathlib

/-!
Verification of the sliding-window fraud-detection engine
(`fraud_detection_v1.0.py` / `fraud_detection_v1.2.py`).

Timestamps are modelled as integer seconds (the source compares `datetime`
values at second precision), amounts as exact rationals.  A raw input field
that the source parses inside the loop (`datetime.strptime`, `float`) is
modelled by its parse result: `none` means the field is malformed and the
parse raises.  A detection run returns `Option`: `none` models an uncaught
exception escaping the call.
-/

/-- A raw v1.2 transaction record: the three comma-separated fields of one
input string after `split(',')`.  `ts` is the result of parsing field 1 with
`strptime` (`none` = malformed timestamp), `amt` the result of `float` on
field 2 (`none` = non-numeric amount). -/
structure RawTx where
  key : String
  ts : Option Int
  amt : Option Rat
deriving DecidableEq, Repr

/-- A well-formed transaction record, whose timestamp and amount both parse. -/
structure ParsedTx where
  key : String
  ts : Int
  amt : Rat
deriving DecidableEq, Repr

/-- Injection of a well-formed record into the raw input format. -/
def ParsedTx.toRaw (r : ParsedTx) : RawTx :=
  ⟨r.key, some r.ts, some r.amt⟩

/-- Fuelled embedding of the window-centre loop shared by all versions
(v1.2 lines 102–107, v1.0 lines 105–110):
`while window_centre < range[1]: window_centre += step; ...` — the list of
successive window centres.  The loop tests the centre *before* incrementing,
so the centre `start + (k+1)*step` is visited exactly when
`start + k*step < stop`.  `none` means the fuel ran out with the loop still
running; for `step ≤ 0` and `start < stop` the source loop never terminates,
and correspondingly no amount of fuel returns `some`. -/
def scanCentersF : Nat → Int → Int → Int → Option (List Int)
  | 0, centre, stop, _ => if centre < stop then none else some []
  | n + 1, centre, stop, step =>
    if centre < stop then
      (scanCentersF n (centre + step) stop step).map (fun l => (centre + step) :: l)
    else some []

/-- Totalisation of `scanCentersF`: for a strictly positive step,
`(stop - start).toNat + 1` units of fuel always suffice
(`scanCentersF_eq_scanCenters`), so for every configuration on which the
source loop terminates this is exactly the list of centres it visits. -/
def scanCenters (start stop step : Int) : List Int :=
  (scanCentersF ((stop - start).toNat + 1) start stop step).getD []

/-- Adding fuel preserves a completed run of the centre loop. -/
theorem scanCentersF_succ :
    ∀ (n : Nat) (centre stop step : Int) (l : List Int),
      scanCentersF n centre stop step = some l →
      scanCentersF (n + 1) centre stop step = some l := by
  intro n
  induction n with
  | zero =>
    intro centre stop step l h
    simp only [scanCentersF] at h ⊢
    by_cases hc : centre < stop
    · simp [hc] at h
    · simpa [hc] using h
  | succ n ih =>
    intro centre stop step l h
    rw [scanCentersF] at h
    rw [scanCentersF]
    by_cases hc : centre < stop
    · simp only [if_pos hc] at h ⊢
      cases hr : scanCentersF n (centre + step) stop step with
      | none => rw [hr] at h; simp at h
      | some l2 =>
        rw [hr] at h
        rw [ih _ _ _ _ hr]
        exact h
    · simp only [if_neg hc] at h ⊢
      exact h

/-- Adding any amount of fuel preserves a completed run of the centre loop. -/
theorem scanCentersF_mono :
    ∀ (n m : Nat), n ≤ m → ∀ (centre stop step : Int) (l : List Int),
      scanCentersF n centre stop step = some l →
      scanCentersF m centre stop step = some l := by
  intro n m hnm
  induction m with
  | zero =>
    intro centre stop step l h
    have : n = 0 := Nat.le_zero.mp hnm
    rwa [this] at h
  | succ m ih =>
    intro centre stop step l h
    rcases Nat.lt_or_ge n (m + 1) with hlt | hge
    · exact scanCentersF_succ m centre stop step l (ih (Nat.lt_succ_iff.mp hlt) centre stop step l h)
    · have : n = m + 1 := Nat.le_antisymm hnm hge
      rwa [this] at h

/-- For a strictly positive step, `(stop - centre).toNat` units of fuel (plus
one) complete the centre loop. -/
theorem scanCentersF_suff (step : Int) (hstep : 0 < step) :
    ∀ (n : Nat) (centre stop : Int), (stop - centre).toNat ≤ n →
      ∃ l, scanCentersF (n + 1) centre stop step = some l := by
  intro n
  induction n with
  | zero =>
    intro centre stop hn
    have hle : stop ≤ centre := by
      have := Int.toNat_eq_zero.mp (Nat.le_zero.mp hn)
      omega
    refine ⟨[], ?_⟩
    rw [scanCentersF]
    simp [Int.not_lt.mpr hle]
  | succ n ih =>
    intro centre stop hn
    by_cases hc : centre < stop
    · have hrec : (stop - (centre + step)).toNat ≤ n := by
        have h1 : 0 < stop - centre := by omega
        omega
      obtain ⟨l, hl⟩ := ih (centre + step) stop hrec
      refine ⟨(centre + step) :: l, ?_⟩
      rw [scanCentersF]
      simp [if_pos hc, hl]
    · refine ⟨[], ?_⟩
      rw [scanCentersF]
      simp [hc]

/-- With enough fuel, the fuelled centre loop computes `scanCenters`. -/
theorem scanCentersF_eq_scanCenters (step : Int) (hstep : 0 < step) (centre stop : Int) :
    ∀ (n : Nat), (stop - centre).toNat ≤ n →
      scanCentersF (n + 1) centre stop step = some (scanCenters centre stop step) := by
  intro n hn
  obtain ⟨l, hl⟩ := scanCentersF_suff step hstep ((stop - centre).toNat) centre stop (le_refl _)
  have h2 : scanCenters centre stop step = l := by
    unfold scanCenters
    rw [hl]
    rfl
  rw [h2]
  exact scanCentersF_mono _ _ (by omega) _ _ _ _ hl

/-- An empty or inverted range produces no window centres at all (for any step:
the loop guard fails immediately). -/
theorem scanCenters_nil (centre stop step : Int) (h : stop ≤ centre) :
    scanCenters centre stop step = [] := by
  unfold scanCenters
  rw [scanCentersF, if_neg (Int.not_lt.mpr h)]
  rfl

/-- For a non-positive step and a non-empty range, the centre loop never
terminates: no amount of fuel completes it. -/
theorem scanCentersF_nonpos (step : Int) (hstep : step ≤ 0) :
    ∀ (n : Nat) (centre stop : Int), centre < stop →
      scanCentersF n centre stop step = none := by
  intro n
  induction n with
  | zero =>
    intro centre stop h
    rw [scanCentersF, if_pos h]
  | succ n ih =>
    intro centre stop h
    rw [scanCentersF, if_pos h, ih (centre + step) stop (by omega)]
    rfl

/-- Unfolding equation of `scanCenters` for a strictly positive step: exactly
the source loop, which tests the current centre and then advances it. -/
theorem scanCenters_unfold (centre stop step : Int) (hstep : 0 < step) :
    scanCenters centre stop step =
      if centre < stop then (centre + step) :: scanCenters (centre + step) stop step
      else [] := by
  by_cases hc : centre < stop
  · rw [if_pos hc]
    have h0 : 0 < (stop - centre).toNat := by omega
    have h1 : scanCentersF ((stop - centre).toNat) (centre + step) stop step
        = some (scanCenters (centre + step) stop step) := by
      have h2 := scanCentersF_eq_scanCenters step hstep (centre + step) stop
        ((stop - centre).toNat - 1) (by omega)
      rwa [Nat.sub_add_cancel h0] at h2
    unfold scanCenters
    rw [scanCentersF, if_pos hc, h1]
    rfl
  · rw [if_neg hc]
    exact scanCenters_nil centre stop step (Int.not_lt.mp hc)

theorem mem_scanCenters_aux (step : Int) (hstep : 0 < step) :
    ∀ (m : Nat) (centre stop : Int), (stop - centre).toNat ≤ m →
      ∀ c, (c ∈ scanCenters centre stop step ↔
        ∃ k : Nat, c = centre + (k + 1) * step ∧ centre + k * step < stop) := by
  intro m
  induction m with
  | zero =>
    intro centre stop hm c
    have h : stop ≤ centre := by omega
    rw [scanCenters_nil centre stop step h]
    simp only [List.not_mem_nil, false_iff, not_exists]
    intro k ⟨_, hk⟩
    have hks : (0:Int) ≤ (k : Int) * step := by positivity
    omega
  | succ m ih =>
    intro centre stop hm c
    by_cases hc : centre < stop
    · rw [scanCenters_unfold centre stop step hstep, if_pos hc, List.mem_cons,
        ih (centre + step) stop (by omega) c]
      constructor
      · rintro (rfl | ⟨k, hck, hk⟩)
        · refine ⟨0, by push_cast; ring, by simpa using hc⟩
        · refine ⟨k + 1, by push_cast at hck ⊢; linear_combination hck, ?_⟩
          have he : centre + (↑(k + 1)) * step = centre + step + (k : Int) * step := by
            push_cast
            ring
          rw [he]
          exact hk
      · rintro ⟨k, hck, hk⟩
        cases k with
        | zero =>
          left
          rw [hck]
          push_cast
          ring
        | succ k =>
          right
          refine ⟨k, by push_cast at hck ⊢; linear_combination hck, ?_⟩
          have he : centre + step + (k : Int) * step = centre + (↑(k + 1)) * step := by
            push_cast
            ring
          rw [he]
          exact hk
    · rw [scanCenters_nil centre stop step (Int.not_lt.mp hc)]
      simp only [List.not_mem_nil, false_iff, not_exists]
      intro k ⟨_, hk⟩
      have hks : (0:Int) ≤ (k : Int) * step := by positivity
      omega

/-- The centres the loop visits are exactly `start + (k+1)*step` for the `k`
with `start + k*step < stop`: the first centre is `start + step`, and the loop
stops only after the tested centre reaches `stop` (so the last visited centre
may lie at or beyond `stop`). -/
theorem mem_scanCenters (step : Int) (hstep : 0 < step) (centre stop c : Int) :
    c ∈ scanCenters centre stop step ↔
      ∃ k : Nat, c = centre + (k + 1) * step ∧ centre + k * step < stop :=
  mem_scanCenters_aux step hstep ((stop - centre).toNat) centre stop (le_refl _) c

/-- Every visited centre lies strictly beyond the range start. -/
theorem scanCenters_gt (step : Int) (hstep : 0 < step) (centre stop : Int) :
    ∀ c ∈ scanCenters centre stop step, centre < c := by
  intro c hc
  obtain ⟨k, rfl, -⟩ := (mem_scanCenters step hstep centre stop c).mp hc
  have h2 : (0:Int) < ((k : Int) + 1) * step := by positivity
  linarith

theorem scanCenters_pairwise_aux (step : Int) (hstep : 0 < step) :
    ∀ (m : Nat) (centre stop : Int), (stop - centre).toNat ≤ m →
      (scanCenters centre stop step).Pairwise (· < ·) := by
  intro m
  induction m with
  | zero =>
    intro centre stop hm
    rw [scanCenters_nil centre stop step (by omega)]
    exact List.Pairwise.nil
  | succ m ih =>
    intro centre stop hm
    by_cases hc : centre < stop
    · rw [scanCenters_unfold centre stop step hstep, if_pos hc]
      exact List.Pairwise.cons (scanCenters_gt step hstep (centre + step) stop)
        (ih (centre + step) stop (by omega))
    · rw [scanCenters_nil centre stop step (Int.not_lt.mp hc)]
      exact List.Pairwise.nil

/-- The sequence of visited window centres is strictly increasing. -/
theorem scanCenters_pairwise (step : Int) (hstep : 0 < step) (centre stop : Int) :
    (scanCenters centre stop step).Pairwise (· < ·) :=
  scanCenters_pairwise_aux step hstep ((stop - centre).toNat) centre stop (le_refl _)

/-- One window pass of v1.2 (lines 110–119): walk the transaction list in
order; for each record first parse its timestamp (`strptime`, a failure raises
at once), then, when `window_start <= time <= window_end`, parse its amount
(`float`, a failure raises) and add it to that card's running total.  `acc` is
the `amt_per_day` table, modelled as a total map from card hash to sum (the
caller zero-initialises it, matching `[0]*len(unique_hashes)`). -/
def windowSums (ws we : Int) : List RawTx → (String → Rat) → Option (String → Rat)
  | [], acc => some acc
  | r :: rest, acc =>
    match r.ts with
    | none => none
    | some t =>
      if ws ≤ t ∧ t ≤ we then
        match r.amt with
        | none => none
        | some a => windowSums ws we rest (fun k => if k = r.key then acc k + a else acc k)
      else windowSums ws we rest acc

/-- The main `while` loop of v1.2 (lines 102–127) over the list of window
centres: each window spans `centre ∓ 12h` (`3600*12 = 43200` seconds), its
per-card totals start from zero, and every card of `unique_hashes` (in order)
whose total strictly exceeds the threshold is appended to `fraudulent`. -/
def scanLoop (unique : List String) (txs : List RawTx) (threshold : Rat) :
    List Int → List String → Option (List String)
  | [], fraudulent => some fraudulent
  | c :: rest, fraudulent =>
    match windowSums (c - 43200) (c + 43200) txs (fun _ => 0) with
    | none => none
    | some sums =>
      scanLoop unique txs threshold rest
        (fraudulent ++ unique.filter (fun k => decide (threshold < sums k)))

/-- The body of v1.2 `flag_fraudulent_activity` with the enumeration order of
`unique_hashes` exposed as a parameter: the source builds it as
`list(set(...))`, whose order Python leaves unspecified, so the embedding is
stated for an arbitrary order (claim C7's theorem shows the returned set does
not depend on it).  The final `list(set(fraudulent_cards))` is modelled by
`List.dedup`. -/
def flagWithOrder (unique : List String) (txs : List RawTx) (start stop : Int)
    (threshold : Rat) (granularity : Int) : Option (List String) :=
  (scanLoop unique txs threshold (scanCenters start stop granularity) []).map List.dedup

/-- v1.2 `flag_fraudulent_activity(transactions, range, threshold, granularity)`
(lines 81–132), taking `unique_hashes` in `List.dedup` order — one admissible
`list(set(...))` enumeration of the distinct card hashes of the input. -/
def flag_fraudulent_activity (txs : List RawTx) (start stop : Int) (threshold : Rat)
    (granularity : Int) : Option (List String) :=
  flagWithOrder ((txs.map (fun r => r.key)).dedup) txs start stop threshold granularity

/-- A v1.0 transaction value: one `(timestamp, amount)` tuple stored under a
card hash in the transactions dict.  The timestamp string is parsed by
`strptime` inside the window loop, so it is modelled by its parse result;
the amount is already numeric. -/
structure TxV0 where
  ts : Option Int
  amt : Rat
deriving DecidableEq, Repr

/-- Inner per-card loop of v1.0 (lines 116–120): sum the amounts of this
card's transactions whose parsed timestamp lies in `[ws, we]`; a timestamp
parse failure raises at once. -/
def windowSumV0 (ws we : Int) : List TxV0 → Rat → Option Rat
  | [], acc => some acc
  | t :: rest, acc =>
    match t.ts with
    | none => none
    | some time =>
      windowSumV0 ws we rest (if ws ≤ time ∧ time ≤ we then acc + t.amt else acc)

/-- Per-window loop of v1.0 (lines 114–125): iterate the dict entries in
order, computing each card's in-window sum from zero and appending the card
when the sum strictly exceeds the threshold. -/
def windowFlagsV0 (ws we : Int) (threshold : Rat) :
    List (String × List TxV0) → List String → Option (List String)
  | [], fraudulent => some fraudulent
  | (k, l) :: rest, fraudulent =>
    match windowSumV0 ws we l 0 with
    | none => none
    | some s =>
      windowFlagsV0 ws we threshold rest
        (if threshold < s then fraudulent ++ [k] else fraudulent)

/-- Main loop of v1.0 (lines 105–125) over the window centres. -/
def scanLoopV0 (txs : List (String × List TxV0)) (threshold : Rat) :
    List Int → List String → Option (List String)
  | [], fraudulent => some fraudulent
  | c :: rest, fraudulent =>
    match windowFlagsV0 (c - 43200) (c + 43200) threshold txs fraudulent with
    | none => none
    | some fraudulent2 => scanLoopV0 txs threshold rest fraudulent2

/-- v1.0 `flag_fraudulent_activity(transactions, range, threshold)`
(lines 85–130): dict input, hard-coded `3600 * 6` second step, the same
12-hour half-width windows, and final deduplication by `list(set(...))`
(modelled by `List.dedup`). -/
def flag_fraudulent_activity_v0 (txs : List (String × List TxV0)) (start stop : Int)
    (threshold : Rat) : Option (List String) :=
  (scanLoopV0 txs threshold (scanCenters start stop (3600 * 6)) []).map List.dedup

/-- Closed form of the per-card total accumulated by one v1.2 window pass:
the sum of the amounts of the records carrying this key whose timestamp lies
in `[ws, we]` (both bounds inclusive).  `windowSums_parsed` proves that this
is what `windowSums` computes. -/
def windowTotal (k : String) (ws we : Int) (txs : List ParsedTx) : Rat :=
  ((txs.filter (fun r => r.key == k && decide (ws ≤ r.ts) && decide (r.ts ≤ we))).map
    (fun r => r.amt)).sum

/-- Closed form of v1.0's per-card in-window sum over a list of
`(timestamp, amount)` pairs.  `windowSumV0_parsed` proves that this is what
`windowSumV0` computes. -/
def pairTotal (ws we : Int) (l : List (Int × Rat)) : Rat :=
  ((l.filter (fun q => decide (ws ≤ q.1) && decide (q.1 ≤ we))).map (fun q => q.2)).sum

/-- The grouped (dict) form of a transaction collection, as consumed by v1.0:
each card hash with its list of parsed `(timestamp, amount)` pairs. -/
def toV0 (d : List (String × List (Int × Rat))) : List (String × List TxV0) :=
  d.map (fun p => (p.1, p.2.map (fun q => TxV0.mk (some q.1) q.2)))

/-- The flat form of the same transaction collection, as consumed by v1.2:
one record per `(timestamp, amount)` pair, tagged with its card hash. -/
def flattenTrans (d : List (String × List (Int × Rat))) : List ParsedTx :=
  match d with
  | [] => []
  | p :: rest => p.2.map (fun q => ParsedTx.mk p.1 q.1 q.2) ++ flattenTrans rest

theorem windowTotal_nil (k : String) (ws we : Int) : windowTotal k ws we [] = 0 := rfl

theorem windowTotal_cons (k : String) (ws we : Int) (r : ParsedTx) (rest : List ParsedTx) :
    windowTotal k ws we (r :: rest) =
      (if r.key = k ∧ ws ≤ r.ts ∧ r.ts ≤ we then r.amt else 0) + windowTotal k ws we rest := by
  unfold windowTotal
  rw [List.filter_cons]
  by_cases h : r.key = k ∧ ws ≤ r.ts ∧ r.ts ≤ we
  · have hb : (r.key == k && decide (ws ≤ r.ts) && decide (r.ts ≤ we)) = true := by
      simp [h.1, h.2.1, h.2.2]
    rw [if_pos h, hb]
    simp
  · have hb : (r.key == k && decide (ws ≤ r.ts) && decide (r.ts ≤ we)) = false := by
      cases hb2 : (r.key == k && decide (ws ≤ r.ts) && decide (r.ts ≤ we)) with
      | false => rfl
      | true =>
        have hp := hb2
        simp only [Bool.and_eq_true, beq_iff_eq, decide_eq_true_eq] at hp
        exact absurd ⟨hp.1.1, hp.1.2, hp.2⟩ h
    rw [if_neg h, hb]
    simp

/-- On well-formed input a v1.2 window pass never fails and computes, for each
card, the accumulator plus the inclusive in-window total of that card. -/
theorem windowSums_parsed (ws we : Int) :
    ∀ (txs : List ParsedTx) (acc : String → Rat),
      windowSums ws we (txs.map ParsedTx.toRaw) acc =
        some (fun k => acc k + windowTotal k ws we txs) := by
  intro txs
  induction txs with
  | nil =>
    intro acc
    have h : (fun k => acc k + windowTotal k ws we []) = acc := by
      funext k
      rw [windowTotal_nil, add_zero]
    rw [List.map_nil, windowSums, h]
  | cons r rest ih =>
    intro acc
    by_cases hin : ws ≤ r.ts ∧ r.ts ≤ we
    · have h1 : windowSums ws we ((r :: rest).map ParsedTx.toRaw) acc =
          windowSums ws we (rest.map ParsedTx.toRaw)
            (fun k => if k = r.key then acc k + r.amt else acc k) := by
        rw [List.map_cons]
        show windowSums ws we (r.toRaw :: rest.map ParsedTx.toRaw) acc = _
        rw [windowSums]
        simp only [ParsedTx.toRaw, if_pos hin]
      rw [h1, ih]
      refine congrArg some (funext fun k => ?_)
      rw [windowTotal_cons]
      by_cases hk : k = r.key
      · rw [if_pos hk, if_pos ⟨hk.symm, hin⟩, add_assoc,
          add_comm r.amt (windowTotal k ws we rest), ← add_assoc, add_assoc,
          add_comm (windowTotal k ws we rest) r.amt]
      · rw [if_neg hk, if_neg (fun hcon => hk hcon.1.symm), zero_add]
    · have h1 : windowSums ws we ((r :: rest).map ParsedTx.toRaw) acc =
          windowSums ws we (rest.map ParsedTx.toRaw) acc := by
        rw [List.map_cons]
        show windowSums ws we (r.toRaw :: rest.map ParsedTx.toRaw) acc = _
        rw [windowSums]
        simp only [ParsedTx.toRaw, if_neg hin]
      rw [h1, ih]
      refine congrArg some (funext fun k => ?_)
      rw [windowTotal_cons, if_neg (fun hcon => hin hcon.2), zero_add]

/-- On well-formed input the v1.2 scan loop never fails, and a card ends up in
`fraudulent` exactly when it started there or its inclusive in-window total
strictly exceeds the threshold at some visited centre. -/
theorem scanLoop_parsed (u : List String) (txs : List ParsedTx) (th : Rat) :
    ∀ (cs : List Int) (acc : List String),
      ∃ l, scanLoop u (txs.map ParsedTx.toRaw) th cs acc = some l ∧
        ∀ k, (k ∈ l ↔ k ∈ acc ∨ (k ∈ u ∧ ∃ c ∈ cs,
          th < windowTotal k (c - 43200) (c + 43200) txs)) := by
  intro cs
  induction cs with
  | nil =>
    intro acc
    refine ⟨acc, rfl, fun k => ?_⟩
    simp
  | cons c rest ih =>
    intro acc
    obtain ⟨l, hl, hmem⟩ := ih
      (acc ++ u.filter (fun k => decide (th <
        (fun k => (fun _ => (0:Rat)) k + windowTotal k (c - 43200) (c + 43200) txs) k)))
    refine ⟨l, ?_, fun k => ?_⟩
    · rw [scanLoop, windowSums_parsed]
      exact hl
    · rw [hmem k]
      simp only [List.mem_append, List.mem_filter, decide_eq_true_eq, zero_add]
      constructor
      · rintro ((hk | ⟨hku, hlt⟩) | ⟨hku, c', hc', hlt⟩)
        · exact Or.inl hk
        · exact Or.inr ⟨hku, c, List.mem_cons_self c rest, hlt⟩
        · exact Or.inr ⟨hku, c', List.mem_cons_of_mem c hc', hlt⟩
      · rintro (hk | ⟨hku, c', hc', hlt⟩)
        · exact Or.inl (Or.inl hk)
        · rcases List.mem_cons.mp hc' with rfl | hc'
          · exact Or.inl (Or.inr ⟨hku, hlt⟩)
          · exact Or.inr ⟨hku, c', hc', hlt⟩

/-- On well-formed input, v1.2 with an arbitrary `unique_hashes` enumeration
returns a duplicate-free list whose members are exactly the enumerated cards
whose total strictly exceeds the threshold in some scanned window. -/
theorem flagWithOrder_parsed (u : List String) (txs : List ParsedTx) (start stop : Int)
    (th : Rat) (g : Int) :
    ∃ l, flagWithOrder u (txs.map ParsedTx.toRaw) start stop th g = some l ∧
      l.Nodup ∧
      ∀ k, (k ∈ l ↔ k ∈ u ∧ ∃ c ∈ scanCenters start stop g,
        th < windowTotal k (c - 43200) (c + 43200) txs) := by
  obtain ⟨l, hl, hmem⟩ := scanLoop_parsed u txs th (scanCenters start stop g) []
  refine ⟨l.dedup, ?_, List.nodup_dedup l, fun k => ?_⟩
  · unfold flagWithOrder
    rw [hl]
    rfl
  · rw [List.mem_dedup, hmem k]
    simp

/-- On well-formed input, v1.2 returns a duplicate-free list whose members are
exactly the cards occurring in the input whose total strictly exceeds the
threshold in some scanned window. -/
theorem flag_parsed (txs : List ParsedTx) (start stop : Int) (th : Rat) (g : Int) :
    ∃ l, flag_fraudulent_activity (txs.map ParsedTx.toRaw) start stop th g = some l ∧
      l.Nodup ∧
      ∀ k, (k ∈ l ↔ (∃ r ∈ txs, r.key = k) ∧ ∃ c ∈ scanCenters start stop g,
        th < windowTotal k (c - 43200) (c + 43200) txs) := by
  obtain ⟨l, hl, hnd, hmem⟩ := flagWithOrder_parsed
    (((txs.map ParsedTx.toRaw).map (fun r => r.key)).dedup) txs start stop th g
  refine ⟨l, hl, hnd, fun k => ?_⟩
  rw [hmem k]
  have hu : k ∈ ((txs.map ParsedTx.toRaw).map (fun r => r.key)).dedup ↔
      ∃ r ∈ txs, r.key = k := by
    rw [List.mem_dedup]
    simp [ParsedTx.toRaw]
  rw [hu]

/-- A v1.2 window pass fails exactly when some record of the batch has a
malformed timestamp, or has a non-numeric amount *and* a timestamp inside this
window (`float` is only reached behind the bounds check). -/
theorem windowSums_none (ws we : Int) :
    ∀ (txs : List RawTx) (acc : String → Rat),
      (windowSums ws we txs acc = none ↔
        ∃ r ∈ txs, r.ts = none ∨
          ∃ t, r.ts = some t ∧ (ws ≤ t ∧ t ≤ we) ∧ r.amt = none) := by
  intro txs
  induction txs with
  | nil =>
    intro acc
    simp [windowSums]
  | cons r rest ih =>
    intro acc
    obtain ⟨key, ts, amt⟩ := r
    cases ts with
    | none =>
      simp only [windowSums]
      constructor
      · intro _
        exact ⟨⟨key, none, amt⟩, List.mem_cons_self _ _, Or.inl rfl⟩
      · intro _
        trivial
    | some t =>
      by_cases hin : ws ≤ t ∧ t ≤ we
      · cases amt with
        | none =>
          simp only [windowSums, if_pos hin]
          constructor
          · intro _
            exact ⟨⟨key, some t, none⟩, List.mem_cons_self _ _, Or.inr ⟨t, rfl, hin, rfl⟩⟩
          · intro _
            trivial
        | some a =>
          simp only [windowSums, if_pos hin]
          rw [ih]
          constructor
          · rintro ⟨r', hr', hfail⟩
            exact ⟨r', List.mem_cons_of_mem _ hr', hfail⟩
          · rintro ⟨r', hr', hfail⟩
            rcases List.mem_cons.mp hr' with rfl | hr'
            · rcases hfail with hnone | ⟨t', _, _, hamt⟩
              · exact absurd hnone (by simp)
              · exact absurd hamt (by simp)
            · exact ⟨r', hr', hfail⟩
      · simp only [windowSums, if_neg hin]
        rw [ih]
        constructor
        · rintro ⟨r', hr', hfail⟩
          exact ⟨r', List.mem_cons_of_mem _ hr', hfail⟩
        · rintro ⟨r', hr', hfail⟩
          rcases List.mem_cons.mp hr' with rfl | hr'
          · rcases hfail with hnone | ⟨t', ht', htin, _⟩
            · exact absurd hnone (by simp)
            · exfalso
              have ht2 : t = t' := Option.some.inj ht'
              rw [← ht2] at htin
              exact hin htin
          · exact ⟨r', hr', hfail⟩

/-- The v1.2 scan loop fails exactly when some visited window's pass fails. -/
theorem scanLoop_none (u : List String) (txs : List RawTx) (th : Rat) :
    ∀ (cs : List Int) (acc : List String),
      (scanLoop u txs th cs acc = none ↔
        ∃ c ∈ cs, windowSums (c - 43200) (c + 43200) txs (fun _ => 0) = none) := by
  intro cs
  induction cs with
  | nil =>
    intro acc
    simp [scanLoop]
  | cons c rest ih =>
    intro acc
    rw [scanLoop]
    cases hw : windowSums (c - 43200) (c + 43200) txs (fun _ => 0) with
    | none =>
      constructor
      · intro _
        exact ⟨c, List.mem_cons_self _ _, hw⟩
      · intro _
        rfl
    | some sums =>
      show scanLoop u txs th rest _ = none ↔ _
      rw [ih]
      constructor
      · rintro ⟨c', hc', hfail⟩
        exact ⟨c', List.mem_cons_of_mem _ hc', hfail⟩
      · rintro ⟨c', hc', hfail⟩
        rcases List.mem_cons.mp hc' with rfl | hc'
        · rw [hw] at hfail
          exact absurd hfail (by simp)
        · exact ⟨c', hc', hfail⟩

/-- v1.2 fails (an exception escapes the call) exactly when some visited
window's pass fails on some record. -/
theorem flag_none (txs : List RawTx) (start stop : Int) (th : Rat) (g : Int) :
    (flag_fraudulent_activity txs start stop th g = none ↔
      ∃ c ∈ scanCenters start stop g,
        windowSums (c - 43200) (c + 43200) txs (fun _ => 0) = none) := by
  unfold flag_fraudulent_activity flagWithOrder
  rw [Option.map_eq_none', scanLoop_none]

/-- Whatever the input, every card the v1.2 scan loop reports was already in
the accumulator or belongs to the `unique_hashes` enumeration. -/
theorem scanLoop_subset (u : List String) (txs : List RawTx) (th : Rat) :
    ∀ (cs : List Int) (acc l : List String),
      scanLoop u txs th cs acc = some l →
      ∀ k ∈ l, k ∈ acc ∨ k ∈ u := by
  intro cs
  induction cs with
  | nil =>
    intro acc l h k hk
    rw [scanLoop] at h
    cases h
    exact Or.inl hk
  | cons c rest ih =>
    intro acc l h k hk
    rw [scanLoop] at h
    cases hw : windowSums (c - 43200) (c + 43200) txs (fun _ => 0) with
    | none =>
      rw [hw] at h
      cases h
    | some sums =>
      rw [hw] at h
      rcases ih _ l h k hk with hacc | hu
      · rcases List.mem_append.mp hacc with hacc | hfil
        · exact Or.inl hacc
        · exact Or.inr (List.mem_of_mem_filter hfil)
      · exact Or.inr hu

theorem pairTotal_nil (ws we : Int) : pairTotal ws we [] = 0 := rfl

theorem pairTotal_cons (ws we : Int) (q : Int × Rat) (rest : List (Int × Rat)) :
    pairTotal ws we (q :: rest) =
      (if ws ≤ q.1 ∧ q.1 ≤ we then q.2 else 0) + pairTotal ws we rest := by
  unfold pairTotal
  rw [List.filter_cons]
  by_cases h : ws ≤ q.1 ∧ q.1 ≤ we
  · have hb : (decide (ws ≤ q.1) && decide (q.1 ≤ we)) = true := by
      simp [h.1, h.2]
    rw [if_pos h, hb]
    simp
  · have hb : (decide (ws ≤ q.1) && decide (q.1 ≤ we)) = false := by
      cases hb2 : (decide (ws ≤ q.1) && decide (q.1 ≤ we)) with
      | false => rfl
      | true =>
        have hp := hb2
        simp only [Bool.and_eq_true, decide_eq_true_eq] at hp
        exact absurd hp h
    rw [if_neg h, hb]
    simp

/-- On well-formed input, v1.0's per-card window sum is the accumulator plus
the inclusive in-window total of the card's pairs. -/
theorem windowSumV0_parsed (ws we : Int) :
    ∀ (l : List (Int × Rat)) (acc : Rat),
      windowSumV0 ws we (l.map (fun q => TxV0.mk (some q.1) q.2)) acc =
        some (acc + pairTotal ws we l) := by
  intro l
  induction l with
  | nil =>
    intro acc
    rw [List.map_nil, windowSumV0, pairTotal_nil, add_zero]
  | cons q rest ih =>
    intro acc
    rw [List.map_cons]
    show windowSumV0 ws we (TxV0.mk (some q.1) q.2 :: rest.map _) acc = _
    rw [windowSumV0]
    by_cases hin : ws ≤ q.1 ∧ q.1 ≤ we
    · simp only [if_pos hin]
      rw [ih, pairTotal_cons, if_pos hin, add_assoc]
    · simp only [if_neg hin]
      rw [ih, pairTotal_cons, if_neg hin, zero_add]

/-- On well-formed input, v1.0's per-window pass over the dict never fails and
flags exactly the cards whose in-window total strictly exceeds the
threshold (plus whatever was already accumulated). -/
theorem windowFlagsV0_parsed (ws we : Int) (th : Rat) :
    ∀ (d : List (String × List (Int × Rat))) (acc : List String),
      ∃ l, windowFlagsV0 ws we th (toV0 d) acc = some l ∧
        ∀ k, (k ∈ l ↔ k ∈ acc ∨ ∃ p ∈ d, p.1 = k ∧ th < pairTotal ws we p.2) := by
  intro d
  induction d with
  | nil =>
    intro acc
    refine ⟨acc, rfl, fun k => ?_⟩
    simp
  | cons p rest ih =>
    intro acc
    obtain ⟨l, hl, hmem⟩ := ih
      (if th < 0 + pairTotal ws we p.2 then acc ++ [p.1] else acc)
    refine ⟨l, ?_, fun k => ?_⟩
    · show windowFlagsV0 ws we th
        ((p.1, p.2.map (fun q => TxV0.mk (some q.1) q.2)) :: toV0 rest) acc = some l
      rw [windowFlagsV0, windowSumV0_parsed]
      exact hl
    · rw [hmem k]
      rw [zero_add]
      by_cases hth : th < pairTotal ws we p.2
      · rw [if_pos hth]
        constructor
        · rintro (hacc | ⟨p', hp', hk, hlt⟩)
          · rcases List.mem_append.mp hacc with hacc | hone
            · exact Or.inl hacc
            · have : k = p.1 := List.mem_singleton.mp hone
              exact Or.inr ⟨p, List.mem_cons_self p rest, this.symm, hth⟩
          · exact Or.inr ⟨p', List.mem_cons_of_mem p hp', hk, hlt⟩
        · rintro (hacc | ⟨p', hp', hk, hlt⟩)
          · exact Or.inl (List.mem_append.mpr (Or.inl hacc))
          · rcases List.mem_cons.mp hp' with rfl | hp'
            · exact Or.inl (List.mem_append.mpr (Or.inr (List.mem_singleton.mpr hk.symm)))
            · exact Or.inr ⟨p', hp', hk, hlt⟩
      · rw [if_neg hth]
        constructor
        · rintro (hacc | ⟨p', hp', hk, hlt⟩)
          · exact Or.inl hacc
          · exact Or.inr ⟨p', List.mem_cons_of_mem p hp', hk, hlt⟩
        · rintro (hacc | ⟨p', hp', hk, hlt⟩)
          · exact Or.inl hacc
          · rcases List.mem_cons.mp hp' with rfl | hp'
            · exact absurd hlt hth
            · exact Or.inr ⟨p', hp', hk, hlt⟩

/-- On well-formed input, v1.0's scan loop never fails and flags exactly the
dict cards whose in-window total strictly exceeds the threshold at some
visited centre. -/
theorem scanLoopV0_parsed (d : List (String × List (Int × Rat))) (th : Rat) :
    ∀ (cs : List Int) (acc : List String),
      ∃ l, scanLoopV0 (toV0 d) th cs acc = some l ∧
        ∀ k, (k ∈ l ↔ k ∈ acc ∨ ∃ p ∈ d, p.1 = k ∧ ∃ c ∈ cs,
          th < pairTotal (c - 43200) (c + 43200) p.2) := by
  intro cs
  induction cs with
  | nil =>
    intro acc
    refine ⟨acc, rfl, fun k => ?_⟩
    simp
  | cons c rest ih =>
    intro acc
    obtain ⟨acc2, hfl, hmem2⟩ := windowFlagsV0_parsed (c - 43200) (c + 43200) th d acc
    obtain ⟨l, hl, hmem⟩ := ih acc2
    refine ⟨l, ?_, fun k => ?_⟩
    · rw [scanLoopV0, hfl]
      exact hl
    · rw [hmem k, hmem2 k]
      constructor
      · rintro ((hacc | ⟨p', hp', hk, hlt⟩) | ⟨p', hp', hk, c', hc', hlt⟩)
        · exact Or.inl hacc
        · exact Or.inr ⟨p', hp', hk, c, List.mem_cons_self c rest, hlt⟩
        · exact Or.inr ⟨p', hp', hk, c', List.mem_cons_of_mem c hc', hlt⟩
      · rintro (hacc | ⟨p', hp', hk, c', hc', hlt⟩)
        · exact Or.inl (Or.inl hacc)
        · rcases List.mem_cons.mp hc' with rfl | hc'
          · exact Or.inl (Or.inr ⟨p', hp', hk, hlt⟩)
          · exact Or.inr ⟨p', hp', hk, c', hc', hlt⟩

/-- On well-formed input, v1.0 returns a duplicate-free list whose members are
exactly the dict cards whose total strictly exceeds the threshold in some
scanned 6-hour-step window. -/
theorem flagV0_parsed (d : List (String × List (Int × Rat))) (start stop : Int) (th : Rat) :
    ∃ l, flag_fraudulent_activity_v0 (toV0 d) start stop th = some l ∧
      l.Nodup ∧
      ∀ k, (k ∈ l ↔ ∃ p ∈ d, p.1 = k ∧ ∃ c ∈ scanCenters start stop (3600 * 6),
        th < pairTotal (c - 43200) (c + 43200) p.2) := by
  obtain ⟨l, hl, hmem⟩ := scanLoopV0_parsed d th (scanCenters start stop (3600 * 6)) []
  refine ⟨l.dedup, ?_, List.nodup_dedup l, fun k => ?_⟩
  · unfold flag_fraudulent_activity_v0
    rw [hl]
    rfl
  · rw [List.mem_dedup, hmem k]
    simp


theorem windowTotal_append (k : String) (ws we : Int) (l1 l2 : List ParsedTx) :
    windowTotal k ws we (l1 ++ l2) = windowTotal k ws we l1 + windowTotal k ws we l2 := by
  unfold windowTotal
  rw [List.filter_append, List.map_append, List.sum_append]

/-- A group of records all tagged with the card under consideration
contributes its own inclusive in-window pair total. -/
theorem windowTotal_seg_eq (k : String) (ws we : Int) :
    ∀ (l : List (Int × Rat)),
      windowTotal k ws we (l.map (fun q => ParsedTx.mk k q.1 q.2)) = pairTotal ws we l := by
  intro l
  induction l with
  | nil => rfl
  | cons q rest ih =>
    rw [List.map_cons, windowTotal_cons, ih, pairTotal_cons]
    simp

/-- A group of records tagged with a different card contributes nothing. -/
theorem windowTotal_seg_ne (k k2 : String) (hne : k2 ≠ k) (ws we : Int) :
    ∀ (l : List (Int × Rat)),
      windowTotal k ws we (l.map (fun q => ParsedTx.mk k2 q.1 q.2)) = 0 := by
  intro l
  induction l with
  | nil => rfl
  | cons q rest ih =>
    rw [List.map_cons, windowTotal_cons, ih,
      if_neg (fun hcon => hne hcon.1), zero_add]

theorem windowTotal_flatten_notmem (k : String) (ws we : Int) :
    ∀ (d : List (String × List (Int × Rat))), (∀ p ∈ d, p.1 ≠ k) →
      windowTotal k ws we (flattenTrans d) = 0 := by
  intro d
  induction d with
  | nil =>
    intro _
    rfl
  | cons p rest ih =>
    intro hne
    show windowTotal k ws we (p.2.map (fun q => ParsedTx.mk p.1 q.1 q.2) ++ flattenTrans rest) = 0
    rw [windowTotal_append, windowTotal_seg_ne k p.1 (hne p (List.mem_cons_self p rest)) ws we,
      ih (fun p2 hp2 => hne p2 (List.mem_cons_of_mem p hp2)), add_zero]

/-- When the dict keys are distinct (as Python dict keys are), a card's
per-window total over the flattened record list equals v1.0's per-window total
over that card's own pair list. -/
theorem windowTotal_flatten (ws we : Int) :
    ∀ (d : List (String × List (Int × Rat))), (d.map Prod.fst).Nodup →
      ∀ p ∈ d, windowTotal p.1 ws we (flattenTrans d) = pairTotal ws we p.2 := by
  intro d
  induction d with
  | nil =>
    intro _ p hp
    exact absurd hp (List.not_mem_nil p)
  | cons p0 rest ih =>
    intro hnd p hp
    rw [List.map_cons, List.nodup_cons] at hnd
    rcases List.mem_cons.mp hp with rfl | hp
    · show windowTotal p.1 ws we (p.2.map (fun q => ParsedTx.mk p.1 q.1 q.2) ++ flattenTrans rest)
        = pairTotal ws we p.2
      rw [windowTotal_append, windowTotal_seg_eq,
        windowTotal_flatten_notmem p.1 ws we rest
          (fun p2 hp2 hcon => hnd.1 (hcon ▸ List.mem_map_of_mem Prod.fst hp2)),
        add_zero]
    · show windowTotal p.1 ws we (p0.2.map (fun q => ParsedTx.mk p0.1 q.1 q.2) ++ flattenTrans rest)
        = pairTotal ws we p.2
      have hne : p0.1 ≠ p.1 := by
        intro hcon
        exact hnd.1 (hcon ▸ List.mem_map_of_mem Prod.fst hp)
      rw [windowTotal_append, windowTotal_seg_ne p.1 p0.1 hne ws we, zero_add,
        ih hnd.2 p hp]

/-- A card occurs in the flattened record list exactly when it is a dict key
owning at least one transaction. -/
theorem mem_flatten_keys (k : String) :
    ∀ (d : List (String × List (Int × Rat))),
      ((∃ r ∈ flattenTrans d, r.key = k) ↔ ∃ p ∈ d, p.1 = k ∧ p.2 ≠ []) := by
  intro d
  induction d with
  | nil =>
    simp [flattenTrans]
  | cons p rest ih =>
    show (∃ r ∈ p.2.map (fun q => ParsedTx.mk p.1 q.1 q.2) ++ flattenTrans rest, r.key = k) ↔ _
    constructor
    · rintro ⟨r, hr, hk⟩
      rcases List.mem_append.mp hr with hr | hr
      · obtain ⟨q, hq, rfl⟩ := List.mem_map.mp hr
        refine ⟨p, List.mem_cons_self p rest, hk, ?_⟩
        intro hcon
        rw [hcon] at hq
        exact List.not_mem_nil q hq
      · obtain ⟨p2, hp2, hk2, hne⟩ := ih.mp ⟨r, hr, hk⟩
        exact ⟨p2, List.mem_cons_of_mem p hp2, hk2, hne⟩
    · rintro ⟨p2, hp2, hk2, hne⟩
      rcases List.mem_cons.mp hp2 with rfl | hp2
      · cases hq : p2.2 with
        | nil => exact absurd hq hne
        | cons q qrest =>
          refine ⟨ParsedTx.mk p2.1 q.1 q.2, ?_, hk2⟩
          apply List.mem_append.mpr
          apply Or.inl
          exact List.mem_map_of_mem _ (List.mem_cons_self q qrest)
      · obtain ⟨r, hr, hk⟩ := ih.mpr ⟨p2, hp2, hk2, hne⟩
        exact ⟨r, List.mem_append.mpr (Or.inr hr), hk⟩

theorem scanLoop_nil_input (th : Rat) :
    ∀ (cs : List Int) (acc : List String), scanLoop [] [] th cs acc = some acc := by
  intro cs
  induction cs with
  | nil =>
    intro acc
    rfl
  | cons c rest ih =>
    intro acc
    show scanLoop [] [] th rest (acc ++ []) = some acc
    rw [List.append_nil]
    exact ih acc

/-- Claim C1 (code bug): the spec's Scenario A and the unit test
`test_single_trans` expect the flagged set `{"card_a"}` for a single record
`("card_a", T, 10)` with threshold 0 and step 24h, for *any* T inside
`[d1, d2)`.  The code violates this: the first window centre is `d1 + 24h`,
so the first window starts at `d1 + 12h` and a record in the first 12 hours
of the range falls in no window at all.  Evaluating the embedded code (times
in seconds from `d1`, range one 365-day year) at the failing input `T = d1`
returns the empty flagged list, while the same record moved to `d1 + 12h`
is flagged as the test expects. -/
theorem claim_C1_code_bug :
    flag_fraudulent_activity [RawTx.mk "card_a" (some 0) (some 10)] 0 31536000 0 86400
        = some [] ∧
    ∃ l, flag_fraudulent_activity [RawTx.mk "card_a" (some 43200) (some 10)] 0 31536000 0 86400
        = some l ∧ "card_a" ∈ l := by
  constructor
  · set_option maxRecDepth 200000 in decide
  · obtain ⟨l, hl, -, hmem⟩ := flag_parsed [ParsedTx.mk "card_a" 43200 10] 0 31536000 0 86400
    refine ⟨l, hl, (hmem "card_a").mpr ⟨⟨ParsedTx.mk "card_a" 43200 10,
      List.mem_singleton.mpr rfl, rfl⟩, 86400, ?_, by norm_num [windowTotal]⟩⟩
    refine (mem_scanCenters 86400 (by decide) 0 31536000 86400).mpr ⟨0, by norm_num, by decide⟩

/-- Claim C2 counterexample: with range `[0, 1)` and step 2 the window centred
at 2 is evaluated even though its centre is not strictly less than
`range.end`, refuting "a window is evaluated if and only if its center is
strictly less than range.end". -/
theorem claim_C2_counterexample :
    (2 : Int) ∈ scanCenters 0 1 2 ∧ ¬ ((2 : Int) < 1) := by
  decide

/-- Claim C2 (amended): for `start < end` and a strictly positive step the
evaluated window centres are exactly `start + step, start + 2*step, …`,
strictly increasing, never `start` itself, and the window with centre
`start + (k+1)*step` is evaluated iff `start + k*step < end` — the loop stops
only once the *tested* centre reaches `range.end`, so the last evaluated
centre may be `≥ range.end`, though always `< range.end + step`. -/
theorem claim_C2_amended (start stop step : Int) (hr : start < stop) (hstep : 0 < step) :
    (∀ c, c ∈ scanCenters start stop step ↔
      ∃ k : Nat, c = start + (k + 1) * step ∧ start + k * step < stop) ∧
    (scanCenters start stop step).Pairwise (· < ·) ∧
    start ∉ scanCenters start stop step ∧
    (start + step) ∈ scanCenters start stop step ∧
    ∀ c ∈ scanCenters start stop step, c < stop + step := by
  refine ⟨fun c => mem_scanCenters step hstep start stop c,
    scanCenters_pairwise step hstep start stop, ?_, ?_, ?_⟩
  · intro hmem
    exact absurd (scanCenters_gt step hstep start stop start hmem) (lt_irrefl start)
  · refine (mem_scanCenters step hstep start stop (start + step)).mpr ⟨0, ?_, ?_⟩
    · push_cast
      ring
    · simpa using hr
  · intro c hc
    obtain ⟨k, rfl, h2⟩ := (mem_scanCenters step hstep start stop c).mp hc
    have he : start + ((k : Int) + 1) * step = (start + (k : Int) * step) + step := by
      ring
    rw [he]
    exact add_lt_add_right h2 step

theorem claim_C2_amended_witness :
    (0 : Int) ∉ scanCenters 0 1 2 ∧ ((0 : Int) + 2) ∈ scanCenters 0 1 2 := by
  obtain ⟨-, -, h3, h4, -⟩ := claim_C2_amended 0 1 2 (by decide) (by decide)
  exact ⟨h3, h4⟩

/-- Claim C3 counterexample: with an inverted range (`start ≥ end`) the code
does not fail with `InvalidConfig` — it performs no validation, scans no
window, and returns the empty flagged list. -/
theorem claim_C3_counterexample :
    flag_fraudulent_activity [RawTx.mk "a" (some 0) (some 5)] 1 0 0 3600 = some [] := by
  decide

/-- Claim C3 (amended): the code performs no input validation whatsoever.
With `range.start ≥ range.end` it scans no windows and returns the empty
flagged list without error (whatever the step); with a strictly positive step
a negative threshold is accepted and the scan completes normally, returning a
flagged list; a non-positive step with a non-empty range makes the window
loop run forever, so neither a flagged set nor an `InvalidConfig` error is
ever returned (no finite fuel completes the loop). -/
theorem claim_C3_amended :
    (∀ (txs : List RawTx) (start stop : Int) (th : Rat) (g : Int), stop ≤ start →
      flag_fraudulent_activity txs start stop th g = some []) ∧
    (∀ (txs : List ParsedTx) (start stop : Int) (th : Rat) (g : Int), th < 0 → 0 < g →
      ∃ l, flag_fraudulent_activity (txs.map ParsedTx.toRaw) start stop th g = some l) ∧
    (∀ (start stop step : Int), step ≤ 0 → start < stop →
      ∀ fuel, scanCentersF fuel start stop step = none) := by
  refine ⟨?_, ?_, ?_⟩
  · intro txs start stop th g h
    unfold flag_fraudulent_activity flagWithOrder
    rw [scanCenters_nil start stop g h]
    rfl
  · intro txs start stop th g hth _hg
    obtain ⟨l, hl, -, -⟩ := flag_parsed txs start stop th g
    exact ⟨l, hl⟩
  · intro start stop step hstep hrange fuel
    exact scanCentersF_nonpos step hstep fuel start stop hrange

theorem claim_C3_amended_witness :
    flag_fraudulent_activity [] 5 3 0 7 = some [] ∧
    (∃ l, flag_fraudulent_activity ([ParsedTx.mk "a" 0 5].map ParsedTx.toRaw) 0 1 (-1) 1
      = some l) ∧
    scanCentersF 10 0 5 0 = none := by
  exact ⟨claim_C3_amended.1 [] 5 3 0 7 (by decide),
    claim_C3_amended.2.1 [ParsedTx.mk "a" 0 5] 0 1 (-1) 1 (by norm_num) (by decide),
    claim_C3_amended.2.2 0 5 0 (by decide) (by decide) 10⟩

/-- Claim C4: a window pass counts a record's amount towards its card's sum
exactly when `window.start ≤ occurred_at ≤ window.end` — the filter predicate
in the computed closed form is precisely the inclusive double bound, and the
second conjunct states the record-level iff explicitly, so a record
timestamped exactly at `window.start` or `window.end` counts. -/
theorem claim_C4_window_inclusive (ws we : Int) (txs : List ParsedTx) :
    (windowSums ws we (txs.map ParsedTx.toRaw) (fun _ => 0) =
      some (fun k => ((txs.filter
        (fun r => r.key == k && decide (ws ≤ r.ts) && decide (r.ts ≤ we))).map
          (fun r => r.amt)).sum)) ∧
    ∀ r ∈ txs, ∀ k : String,
      (r ∈ txs.filter (fun r => r.key == k && decide (ws ≤ r.ts) && decide (r.ts ≤ we)) ↔
        r.key = k ∧ ws ≤ r.ts ∧ r.ts ≤ we) := by
  constructor
  · rw [windowSums_parsed]
    refine congrArg some (funext fun k => ?_)
    rw [zero_add]
    rfl
  · intro r hr k
    rw [List.mem_filter]
    simp [hr, and_assoc]

theorem claim_C4_witness :
    ParsedTx.mk "a" 0 5 ∈ [ParsedTx.mk "a" 0 5].filter
        (fun r => r.key == "a" && decide ((0 : Int) ≤ r.ts) && decide (r.ts ≤ (10 : Int))) ↔
      (ParsedTx.mk "a" 0 5).key = "a" ∧ (0 : Int) ≤ (ParsedTx.mk "a" 0 5).ts ∧
        (ParsedTx.mk "a" 0 5).ts ≤ (10 : Int) :=
  (claim_C4_window_inclusive 0 10 [ParsedTx.mk "a" 0 5]).2
    (ParsedTx.mk "a" 0 5) (by decide) "a"

/-- Claim C5: a card appears in the final result iff it occurs in the input
and its per-window sum strictly exceeds the threshold in at least one scanned
window — a sum exactly equal to the threshold never flags, since the source
comparison is `sum > threshold` — and the returned list is duplicate-free, so
a card exceeding the threshold in several windows appears exactly once. -/
theorem claim_C5_strict_threshold_dedup (txs : List ParsedTx) (start stop : Int) (th : Rat)
    (g : Int) (l : List String)
    (h : flag_fraudulent_activity (txs.map ParsedTx.toRaw) start stop th g = some l) :
    l.Nodup ∧
    ∀ k, (k ∈ l ↔ (∃ r ∈ txs, r.key = k) ∧ ∃ c ∈ scanCenters start stop g,
      th < windowTotal k (c - 43200) (c + 43200) txs) := by
  obtain ⟨l2, hl2, hnd, hmem⟩ := flag_parsed txs start stop th g
  rw [hl2] at h
  injection h with h
  subst h
  exact ⟨hnd, hmem⟩

theorem claim_C5_witness :
    ∃ l, flag_fraudulent_activity ([ParsedTx.mk "a" 0 50].map ParsedTx.toRaw) 0 1 10 1
        = some l ∧ l.Nodup := by
  obtain ⟨l, hl, -, -⟩ := flag_parsed [ParsedTx.mk "a" 0 50] 0 1 10 1
  exact ⟨l, hl, (claim_C5_strict_threshold_dedup [ParsedTx.mk "a" 0 50] 0 1 10 1 l hl).1⟩

/-- Claim C6: with records, range and step fixed, raising the threshold can
only shrink the flagged set: every card flagged at the higher threshold `t2`
is also flagged at the lower threshold `t1`. -/
theorem claim_C6_threshold_monotone (txs : List ParsedTx) (start stop g : Int) (t1 t2 : Rat)
    (hle : t1 ≤ t2) (l1 l2 : List String)
    (h1 : flag_fraudulent_activity (txs.map ParsedTx.toRaw) start stop t1 g = some l1)
    (h2 : flag_fraudulent_activity (txs.map ParsedTx.toRaw) start stop t2 g = some l2) :
    ∀ k ∈ l2, k ∈ l1 := by
  obtain ⟨m1, hm1, -, hmem1⟩ := flag_parsed txs start stop t1 g
  obtain ⟨m2, hm2, -, hmem2⟩ := flag_parsed txs start stop t2 g
  rw [hm1] at h1
  injection h1 with h1
  subst h1
  rw [hm2] at h2
  injection h2 with h2
  subst h2
  intro k hk
  obtain ⟨hkey, c, hc, hlt⟩ := (hmem2 k).mp hk
  exact (hmem1 k).mpr ⟨hkey, c, hc, lt_of_le_of_lt hle hlt⟩

theorem claim_C6_witness :
    ∃ l1 l2,
      flag_fraudulent_activity ([ParsedTx.mk "a" 0 50].map ParsedTx.toRaw) 0 1 10 1
        = some l1 ∧
      flag_fraudulent_activity ([ParsedTx.mk "a" 0 50].map ParsedTx.toRaw) 0 1 60 1
        = some l2 ∧
      ∀ k ∈ l2, k ∈ l1 := by
  obtain ⟨l1, h1, -, -⟩ := flag_parsed [ParsedTx.mk "a" 0 50] 0 1 10 1
  obtain ⟨l2, h2, -, -⟩ := flag_parsed [ParsedTx.mk "a" 0 50] 0 1 60 1
  exact ⟨l1, l2, h1, h2, claim_C6_threshold_monotone [ParsedTx.mk "a" 0 50] 0 1 1 10 60
    (by norm_num) l1 l2 h1 h2⟩

/-- Claim C7: the detection is a deterministic function of its inputs with no
state retained across calls; in particular the only internally
under-specified choice — the enumeration order Python's `list(set(...))`
gives `unique_hashes` — cannot change the returned set: any two enumerations
with the same members yield flagged lists with the same members. -/
theorem claim_C7_deterministic (txs : List ParsedTx) (u1 u2 : List String)
    (start stop : Int) (th : Rat) (g : Int)
    (hu : ∀ k, k ∈ u1 ↔ k ∈ u2) (l1 l2 : List String)
    (h1 : flagWithOrder u1 (txs.map ParsedTx.toRaw) start stop th g = some l1)
    (h2 : flagWithOrder u2 (txs.map ParsedTx.toRaw) start stop th g = some l2) :
    ∀ k, (k ∈ l1 ↔ k ∈ l2) := by
  obtain ⟨m1, hm1, -, hmem1⟩ := flagWithOrder_parsed u1 txs start stop th g
  obtain ⟨m2, hm2, -, hmem2⟩ := flagWithOrder_parsed u2 txs start stop th g
  rw [hm1] at h1
  injection h1 with h1
  subst h1
  rw [hm2] at h2
  injection h2 with h2
  subst h2
  intro k
  rw [hmem1 k, hmem2 k, hu k]

theorem claim_C7_witness :
    ∃ l1 l2,
      flagWithOrder ["a", "b"] ([ParsedTx.mk "a" 0 50].map ParsedTx.toRaw) 0 1 10 1
        = some l1 ∧
      flagWithOrder ["b", "a"] ([ParsedTx.mk "a" 0 50].map ParsedTx.toRaw) 0 1 10 1
        = some l2 ∧
      ∀ k, (k ∈ l1 ↔ k ∈ l2) := by
  obtain ⟨l1, h1, -, -⟩ := flagWithOrder_parsed ["a", "b"] [ParsedTx.mk "a" 0 50] 0 1 10 1
  obtain ⟨l2, h2, -, -⟩ := flagWithOrder_parsed ["b", "a"] [ParsedTx.mk "a" 0 50] 0 1 10 1
  refine ⟨l1, l2, h1, h2, claim_C7_deterministic [ParsedTx.mk "a" 0 50] ["a", "b"] ["b", "a"]
    0 1 10 1 (fun k => ?_) l1 l2 h1 h2⟩
  simp only [List.mem_cons, List.not_mem_nil, or_false]
  exact or_comm

/-- Claim C8 counterexample: a batch containing a record with a non-numeric
amount (here with a timestamp outside every scanned window) does not make the
call fail: the malformed record is silently skipped and the call still
returns a flagged set. -/
theorem claim_C8_counterexample :
    flag_fraudulent_activity
      [RawTx.mk "bad" (some 100000) none, RawTx.mk "b" (some 50000) (some 10)] 0 1 5 1
      = some [] := by
  decide

/-- Claim C8 (amended): for a strictly positive step (on a non-positive step
with a non-empty range the source loop never returns at all), parsing happens
lazily inside the window loop, so the call fails iff some scanned window hits
a malformed field: a malformed timestamp is fatal as soon as any window is
scanned (every record's timestamp is re-parsed in every window), while a
non-numeric amount is fatal only if that record's timestamp lies inside some
scanned window.  Otherwise — no window scanned, or the malformed-amount
record outside every window — the malformed record is silently skipped and
the rest of the batch is processed. -/
theorem claim_C8_amended (txs : List RawTx) (start stop : Int) (th : Rat) (g : Int)
    (_hg : 0 < g) :
    flag_fraudulent_activity txs start stop th g = none ↔
      ∃ c ∈ scanCenters start stop g, ∃ r ∈ txs,
        r.ts = none ∨ ∃ t, r.ts = some t ∧ (c - 43200 ≤ t ∧ t ≤ c + 43200) ∧ r.amt = none := by
  rw [flag_none]
  constructor
  · rintro ⟨c, hc, hw⟩
    exact ⟨c, hc, (windowSums_none (c - 43200) (c + 43200) txs (fun _ => 0)).mp hw⟩
  · rintro ⟨c, hc, hr⟩
    exact ⟨c, hc, (windowSums_none (c - 43200) (c + 43200) txs (fun _ => 0)).mpr hr⟩

theorem claim_C8_amended_witness :
    flag_fraudulent_activity [RawTx.mk "x" none (some 5)] 0 1 5 1 = none := by
  refine (claim_C8_amended [RawTx.mk "x" none (some 5)] 0 1 5 1 (by decide)).mpr ?_
  refine ⟨1, by decide, RawTx.mk "x" none (some 5), List.mem_singleton.mpr rfl, Or.inl rfl⟩

/-- Claim C9: on any transaction collection — a dict with distinct keys, each
owning at least one transaction — v1.0 (dict input, hard-coded 6-hour step)
and v1.2 (the flattened record list, called with granularity `6*3600`) flag
exactly the same set of card hashes. -/
theorem claim_C9_v0_v2_equivalence (d : List (String × List (Int × Rat))) (start stop : Int)
    (th : Rat) (hkeys : (d.map Prod.fst).Nodup) (hne : ∀ p ∈ d, p.2 ≠ []) :
    ∃ l0 l2, flag_fraudulent_activity_v0 (toV0 d) start stop th = some l0 ∧
      flag_fraudulent_activity ((flattenTrans d).map ParsedTx.toRaw) start stop th (6 * 3600)
        = some l2 ∧
      ∀ k, (k ∈ l0 ↔ k ∈ l2) := by
  obtain ⟨l0, hl0, -, hmem0⟩ := flagV0_parsed d start stop th
  obtain ⟨l2, hl2, -, hmem2⟩ := flag_parsed (flattenTrans d) start stop th (6 * 3600)
  have hg : (6 * 3600 : Int) = 3600 * 6 := by norm_num
  rw [hg] at hmem2
  refine ⟨l0, l2, hl0, hl2, fun k => ?_⟩
  rw [hmem0 k, hmem2 k]
  constructor
  · rintro ⟨p, hp, hk, c, hc, hlt⟩
    refine ⟨(mem_flatten_keys k d).mpr ⟨p, hp, hk, hne p hp⟩, c, hc, ?_⟩
    have hwt := windowTotal_flatten (c - 43200) (c + 43200) d hkeys p hp
    rw [← hk, hwt]
    exact hlt
  · rintro ⟨hex, c, hc, hlt⟩
    obtain ⟨p, hp, hk, hpne⟩ := (mem_flatten_keys k d).mp hex
    refine ⟨p, hp, hk, c, hc, ?_⟩
    have hwt := windowTotal_flatten (c - 43200) (c + 43200) d hkeys p hp
    rw [← hk, hwt] at hlt
    exact hlt

theorem claim_C9_witness :
    ∃ l0 l2,
      flag_fraudulent_activity_v0 (toV0 [("a", [((0 : Int), (50 : Rat))])]) 0 1 10 = some l0 ∧
      flag_fraudulent_activity
        ((flattenTrans [("a", [((0 : Int), (50 : Rat))])]).map ParsedTx.toRaw) 0 1 10 (6 * 3600)
        = some l2 ∧
      ∀ k, (k ∈ l0 ↔ k ∈ l2) :=
  claim_C9_v0_v2_equivalence [("a", [(0, 50)])] 0 1 10 (by decide) (by decide)

/-- Claim C10: every flagged card occurs as the card-hash field of some input
record — the result is a subset of the input's key universe — and the empty
record collection yields the empty flagged set. -/
theorem claim_C10_subset_universe (txs : List RawTx) (start stop : Int) (th : Rat) (g : Int)
    (l : List String) (h : flag_fraudulent_activity txs start stop th g = some l) :
    (∀ k ∈ l, ∃ r ∈ txs, r.key = k) ∧ (txs = [] → l = []) := by
  constructor
  · intro k hk
    unfold flag_fraudulent_activity flagWithOrder at h
    cases hs : scanLoop ((txs.map (fun r => r.key)).dedup) txs th (scanCenters start stop g) []
      with
    | none =>
      rw [hs] at h
      exact absurd h (by simp)
    | some m =>
      rw [hs] at h
      injection h with h
      subst h
      have hk2 : k ∈ m := List.mem_dedup.mp hk
      rcases scanLoop_subset ((txs.map (fun r => r.key)).dedup) txs th
        (scanCenters start stop g) [] m hs k hk2 with h0 | hu
      · exact absurd h0 (List.not_mem_nil k)
      · rw [List.mem_dedup] at hu
        obtain ⟨r, hr, hkey⟩ := List.mem_map.mp hu
        exact ⟨r, hr, hkey⟩
  · intro he
    subst he
    unfold flag_fraudulent_activity flagWithOrder at h
    rw [List.map_nil, List.dedup_nil, scanLoop_nil_input th (scanCenters start stop g) []] at h
    injection h with h
    rw [← h]
    rfl

theorem claim_C10_witness :
    (∀ k ∈ ([] : List String),
      ∃ r ∈ [RawTx.mk "a" (some 100000) (some 5)], r.key = k) ∧
    ([RawTx.mk "a" (some 100000) (some 5)] = ([] : List RawTx) → ([] : List String) = []) :=
  claim_C10_subset_universe [RawTx.mk "a" (some 100000) (some 5)] 0 1 5 1 [] (by decide)
